import Mathlib

set_option maxHeartbeats 1000000

namespace Lexparse

/-! Shallow embedding of the `lexparse` Go library (github.com/ianlewis/lexparse).

The lexer (`CustomLexer`), parser (`Parser`) and coordinator error aggregation
(`lexParseErr`) are translated from `src/lexparse.go`.  The underlying
`runeio.RuneReader` over a byte stream is modelled as a fully buffered
in-memory reader: `input` is the list of not-yet-consumed runes and `ioerr` is
an optional I/O failure that the underlying stream reports once `input` is
exhausted (`none` models a clean end of input).  `Buffered()` is therefore
`input.length`, `Peek n` returns `input.take n` together with an error when
fewer than `n` runes are available, and `Discard`/`ReadRune` drop runes from
the front.  Machine integers are modelled as `Nat`/`Int`; Go `nil` pointers
and `nil` errors are `Option`. -/

/-- Source coordinate, as used throughout `src/lexparse.go`
(`Position{Filename, Offset, Line, Column}`; the declaring file is not under
`src/`, its fields are exactly the ones the sources construct and read).
`offset` counts runes; `line`/`column` are 1-based in initialized positions,
while Go's zero value of this struct is `⟨"", 0, 0, 0⟩`. -/
structure Position where
  filename : String
  offset : Nat
  line : Nat
  column : Nat
deriving DecidableEq

/-- Token type tags.  Modelled from the spec: the declaring file is not under
`src/`; `TokenType` is a small integer-like space and the framework reserves
the sentinel `TokenTypeEOF`, distinct from all user-defined tags (user tags in
the sources start from 0 upward). -/
def TokenTypeEOF : Int := -1

/-- An emitted lexeme (`Token{Type, Value, Start, End}` in the sources; the
`End` field is named `endPos` here because `end` is a Lean keyword). -/
structure Token where
  type : Int
  value : String
  start : Position
  endPos : Position
deriving DecidableEq

/-- Go error values that appear in the lexer/parser/coordinator:
`io.EOF`, `context.Canceled`, wrapped I/O errors, and user state errors
(from lexer states and parser states respectively). -/
inductive Err where
  | eof
  | canceled
  | ioError (msg : String)
  | lexError (msg : String)
  | parseError (msg : String)
deriving DecidableEq

/-- The error the underlying reader reports once `input` is exhausted:
the recorded I/O failure if there is one, otherwise `io.EOF`. -/
def readErr (ioerr : Option String) : Err :=
  match ioerr with
  | some msg => Err.ioError msg
  | none => Err.eof

/-- State of a `CustomLexer` (`src/lexparse.go`): the emitted-token buffer
`buf`, the modelled reader (`input`, `ioerr`), the in-progress token text `b`
(a `strings.Builder`), the reader position `pos`, the token cursor `cursor`
and the sticky error `err`.  The current `LexState` is threaded separately
through the driver (`nextTokenLoop`), since no cursor operation touches it. -/
structure CustomLexer where
  buf : List Token
  input : List Char
  ioerr : Option String
  b : String
  pos : Position
  cursor : Position
  err : Option Err
deriving DecidableEq

/-- `NewCustomLexer` for a non-file reader (so `Filename` is empty): both
positions start at offset 0, line 1, column 1. -/
def NewCustomLexer (input : List Char) (ioerr : Option String) : CustomLexer :=
  { buf := []
    input := input
    ioerr := ioerr
    b := ""
    pos := { filename := "", offset := 0, line := 1, column := 1 }
    cursor := { filename := "", offset := 0, line := 1, column := 1 }
    err := none }

/-- `CustomLexer.setErr`: record `e` only if no error is recorded yet and `e`
is neither `nil` nor `io.EOF` (recording `none` is a no-op either way). -/
def CustomLexer.setErr (l : CustomLexer) (e : Option Err) : CustomLexer :=
  if l.err = none ∧ ¬e = some Err.eof then { l with err := e } else l

/-- `CustomLexer.ignore`: move the token cursor to the reader position and
clear the in-progress text. -/
def CustomLexer.ignore (l : CustomLexer) : CustomLexer :=
  { l with cursor := l.pos, b := "" }

/-- `CustomLexer.newToken`: a token from the current cursor position to the
current reader position, with the in-progress text as value. -/
def CustomLexer.newToken (l : CustomLexer) (typ : Int) : Token :=
  { type := typ, value := l.b, start := l.cursor, endPos := l.pos }

/-- `CustomLexer.peekN`: `nil` when the sticky error is set; otherwise peek up
to `n` runes without consuming, recording (via `setErr`) the reader's error
when fewer than `n` runes are available. -/
def CustomLexer.peekN (l : CustomLexer) (n : Nat) : List Char × CustomLexer :=
  if ¬l.err = none then ([], l)
  else
    let p := l.input.take n
    let e : Option Err := if l.input.length < n then some (readErr l.ioerr) else none
    (p, l.setErr e)

/-- `CustomLexerContext.Peek`: first rune of `PeekN 1`, or the `EOF` sentinel
(modelled as `none`) if no rune is available. -/
def CustomLexer.peek (l : CustomLexer) : Option Char × CustomLexer :=
  let pr := l.peekN 1
  match pr.1 with
  | [] => (none, pr.2)
  | c :: _ => (some c, pr.2)

/-- `CustomLexer.nextRune`: read one rune, advancing the reader position and
appending to the in-progress text; the `EOF` sentinel (`none`) on the sticky
error or on an exhausted reader. -/
def CustomLexer.nextRune (l : CustomLexer) : CustomLexer × Option Char :=
  if ¬l.err = none then (l, none)
  else
    match l.input with
    | [] => (l.setErr (some (readErr l.ioerr)), none)
    | c :: rest =>
      let p1 := { l.pos with offset := l.pos.offset + 1, column := l.pos.column + 1 }
      let p2 := if c = '\n' then { p1 with line := p1.line + 1, column := 1 } else p1
      ({ l with input := rest, pos := p2, b := l.b.push c }, some c)

/-- The line/column update `advance` applies to each discarded rune
(`if rn == '\n' { line++; column = 1 } else { column++ }`). -/
def lineColStep (p : Position) (c : Char) : Position :=
  if c = '\n' then { p with line := p.line + 1, column := 1 }
  else { p with column := p.column + 1 }

/-- Net per-rune position update of every consuming operation: offset
increases by one, then the line/column update is applied. -/
def stepPos (p : Position) (c : Char) : Position :=
  lineColStep { p with offset := p.offset + 1 } c

/-- One chunk of `CustomLexer.advance`'s loop body: discard the peeked runes
(`Discard` of a fully buffered reader never fails), bump `offset` by the
number discarded, apply the line/column update per rune, and append the
consumed runes to the in-progress text unless discarding. -/
def consumeChunk (l : CustomLexer) (disc : Bool) (peeked : List Char) : CustomLexer :=
  { l with
    input := l.input.drop peeked.length
    pos := peeked.foldl lineColStep { l.pos with offset := l.pos.offset + peeked.length }
    b := if disc then l.b else l.b ++ peeked.asString }

/-- The `for numRunes > 0` loop of `CustomLexer.advance`.  `toRead` is
`min(Buffered, numRunes)`, or `min(numRunes, 16)` when nothing is buffered;
a genuine I/O error from `Peek` is wrapped and recorded before anything is
consumed, while `io.EOF` from `Peek` stops the loop after consuming what was
available. -/
def CustomLexer.advanceLoop (disc : Bool) : CustomLexer → Nat → Nat → CustomLexer × Nat
  | l, 0, advanced => (l, advanced)
  | l, numRunes + 1, advanced =>
    let toRead0 := min l.input.length (numRunes + 1)
    let toRead := if toRead0 = 0 then min (numRunes + 1) 16 else toRead0
    let peeked := l.input.take toRead
    if l.input.length < toRead then
      match l.ioerr with
      | some msg =>
        (l.setErr (some (Err.ioError ("peeking input: " ++ msg))), advanced)
      | none =>
        (consumeChunk l disc peeked, advanced + peeked.length)
    else
      CustomLexer.advanceLoop disc (consumeChunk l disc peeked)
        (numRunes + 1 - peeked.length) (advanced + peeked.length)
termination_by _ n _ => n
decreasing_by
  rename_i hshort
  simp only [List.length_take]
  unfold_let toRead toRead0 at hshort ⊢
  by_cases hz : min l.input.length (numRunes + 1) = 0
  · rw [dif_pos hz] at hshort ⊢
    omega
  · rw [dif_neg hz] at hshort ⊢
    omega

/-- `CustomLexer.advance`: 0 and no movement on an already-recorded error;
otherwise run the loop and — when `discard` is set — apply the deferred
`ignore` on every return path. -/
def CustomLexer.advance (l : CustomLexer) (numRunes : Nat) (disc : Bool) : CustomLexer × Nat :=
  if ¬l.err = none then (l, 0)
  else
    let r := CustomLexer.advanceLoop disc l numRunes 0
    (if disc then r.1.ignore else r.1, r.2)

/-- `CustomLexer.emit`: a no-op returning `nil` under the sticky error;
otherwise build the token, append it to the emitted-token buffer, `ignore`,
and return the token. -/
def CustomLexer.emit (l : CustomLexer) (typ : Int) : Option Token × CustomLexer :=
  if ¬l.err = none then (none, l)
  else
    let token := l.newToken typ
    (some token, CustomLexer.ignore { l with buf := l.buf ++ [token] })

/-- `CustomLexerContext.Width`: `pos.Offset - cursor.Offset`. -/
def CustomLexer.width (l : CustomLexer) : Nat :=
  l.pos.offset - l.cursor.offset

/-- The `maxLen` computation shared by `find` and `discardTo`
(`if len(query[i]) > maxLen { maxLen = len(query[i]) }`).  The model counts
runes where Go counts bytes; the two agree on emptiness and on the ASCII
needles used throughout the repository, and no verified property depends on
the difference. -/
def maxQueryLen (query : List String) : Nat :=
  query.foldl (fun m s => if s.length > m then s.length else m) 0

/-- The scanning loop of `CustomLexer.find`: peek `maxLen` runes; stop with
`""` when none are available; return the first needle that is a prefix of the
peeked runes; otherwise consume one rune and continue.  `fuel` bounds the
number of iterations (the Go loop has no such bound). -/
def CustomLexer.findLoop (query : List String) (maxLen : Nat) :
    Nat → CustomLexer → Option (String × CustomLexer)
  | 0, _ => none
  | fuel + 1, l =>
    let pr := l.peekN maxLen
    if pr.1.length = 0 then some ("", pr.2)
    else
      match query.find? (fun qj => List.isPrefixOf qj.data pr.1) with
      | some qj => some (qj, pr.2)
      | none => CustomLexer.findLoop query maxLen fuel (pr.2.nextRune).1

/-- `CustomLexer.find`: empty string immediately when `maxLen` is 0, otherwise
the scanning loop.  The token cursor is never moved. -/
def CustomLexer.find (l : CustomLexer) (fuel : Nat) (query : List String) :
    Option (String × CustomLexer) :=
  if maxQueryLen query = 0 then some ("", l)
  else CustomLexer.findLoop query (maxQueryLen query) fuel l

/-- The nested `for i`/`for j` scan of `CustomLexer.discardTo`: the first
offset `i` (in `0 ..< len(rns)-maxLen+1`, computed over `Int` in Go, hence the
truncated `(rns.length + 1) - maxLen` here) at which some needle — the first
in caller order — is a prefix of `rns[i : i+maxLen]`. -/
def scanMatch (query : List String) (maxLen : Nat) (rns : List Char) : Option (Nat × String) :=
  (List.range ((rns.length + 1) - maxLen)).findSome? fun i =>
    (query.find? fun qj => List.isPrefixOf qj.data ((rns.drop i).take maxLen)).map
      fun qj => (i, qj)

/-- The outer loop of `CustomLexer.discardTo`: peek `max(Buffered, maxLen)`
runes, scan them for a needle; on a match discard the runes before it (an
incomplete discard means an error occurred and returns `""`), otherwise
discard the runes that can no longer start a match and continue.  `fuel`
bounds the number of iterations. -/
def CustomLexer.discardToLoop (query : List String) (maxLen : Nat) :
    Nat → CustomLexer → Option (String × CustomLexer)
  | 0, _ => none
  | fuel + 1, l =>
    let bufS := max l.input.length maxLen
    let pr := l.peekN bufS
    match scanMatch query maxLen pr.1 with
    | some (i, qj) =>
      let ar := pr.2.advance i true
      if ar.2 < i then some ("", ar.1) else some (qj, ar.1)
    | none =>
      let t := (pr.1.length + 1) - maxLen
      let toDiscard := if t = 0 then 1 else t
      let ar := pr.2.advance toDiscard true
      if ar.2 < toDiscard then some ("", ar.1)
      else CustomLexer.discardToLoop query maxLen fuel ar.1

/-- `CustomLexer.discardTo`: empty string immediately when `maxLen` is 0,
otherwise the outer scanning loop. -/
def CustomLexer.discardTo (l : CustomLexer) (fuel : Nat) (query : List String) :
    Option (String × CustomLexer) :=
  if maxQueryLen query = 0 then some ("", l)
  else CustomLexer.discardToLoop query (maxQueryLen query) fuel l

/-- A user-supplied `LexState` machine (`LexState.Run` receives the lexer
through the context and returns the next state — `none` models a `nil`
`LexState` — together with an error).  `σ` is the set of states. -/
structure LexMachine (σ : Type) where
  run : σ → CustomLexer → CustomLexer × Option σ × Option Err

/-- The code after `CustomLexer.NextToken`'s driver loop: return the front of
the emitted-token buffer, popping it unless its type is `TokenTypeEOF`;
synthesize an `EOF` token when the buffer is empty. -/
def nextTokenFinish {σ : Type} (l : CustomLexer) (st : Option σ) :
    CustomLexer × Option σ × Token :=
  match l.buf with
  | t :: rest =>
    if ¬t.type = TokenTypeEOF then ({ l with buf := rest }, st, t) else (l, st, t)
  | [] => (l, st, l.newToken TokenTypeEOF)

/-- The `for len(l.buf) == 0 && l.state != nil` loop of
`CustomLexer.NextToken`: check cancellation (`done k` models `ctx.Done()` at
the `k`-th iteration), run the current state, record its error, and return a
synthesized `EOF` token as soon as the sticky error is set.  `fuel` bounds the
number of state invocations (the Go loop has no such bound). -/
def nextTokenLoop {σ : Type} (mach : LexMachine σ) (done : Nat → Bool) :
    Nat → Nat → CustomLexer → Option σ → Option (CustomLexer × Option σ × Token)
  | 0, _, _, _ => none
  | fuel + 1, k, l, st =>
    match st with
    | none => some (nextTokenFinish l none)
    | some s =>
      if l.buf = [] then
        if done k then
          let l1 := l.setErr (some Err.canceled)
          some (l1, some s, l1.newToken TokenTypeEOF)
        else
          let r := mach.run s l
          let l1 := r.1.setErr r.2.2
          if ¬l1.err = none then some (l1, r.2.1, l1.newToken TokenTypeEOF)
          else nextTokenLoop mach done fuel (k + 1) l1 r.2.1
      else some (nextTokenFinish l (some s))

/-- `CustomLexer.NextToken`: an `EOF` token immediately under the sticky
error, otherwise the driver loop.  The result carries the updated lexer and
current state alongside the returned token; `none` means the fuel ran out. -/
def NextToken {σ : Type} (mach : LexMachine σ) (done : Nat → Bool) (fuel : Nat)
    (l : CustomLexer) (st : Option σ) : Option (CustomLexer × Option σ × Token) :=
  if ¬l.err = none then some (l, st, l.newToken TokenTypeEOF)
  else nextTokenLoop mach done fuel 0 l st

/-- The error aggregation at the end of `LexParse` (`src/lexparse.go`, lines
94–101): start from the lexer's error and replace it by the parser's error
when it is `nil`, `context.Canceled`, or `io.EOF`.  `lexErr` is what
`lex.Err()` returned after the producer goroutine finished and `parseErr` is
what `Parser.Parse` returned. -/
def lexParseErr (lexErr parseErr : Option Err) : Option Err :=
  if lexErr = none ∨ lexErr = some Err.canceled ∨ lexErr = some Err.eof then parseErr
  else lexErr

/-- A parse-tree node (`Node[V]`), in an arena representation: `parent` and
the entries of `children` are indices into the parser's node arena, modelling
Go's `*Node[V]` pointers (the back-reference cycle cannot be represented by a
directly inductive type). -/
structure PNode (V : Type) where
  value : V
  start : Position
  parent : Option Nat
  children : List Nat
deriving DecidableEq

/-- Replace the first occurrence of `a` in the list by `b` (the
`for i ... if Children[i] == p.node { Children[i] = node; break }` loop). -/
def replaceFirst : List Nat → Nat → Nat → List Nat
  | [], _, _ => []
  | x :: xs, a, b => if x = a then b :: xs else x :: replaceFirst xs a b

/-- Update the node at index `i`, if it exists. -/
def modifyAt {α : Type} (ns : List α) (i : Nat) (f : α → α) : List α :=
  match ns.get? i with
  | some a => ns.set i (f a)
  | none => ns

/-- State of a `Parser[V]`: the node arena (`nodes`, indices model pointers),
the root and current-node indices, the last consumed token (`token`), the
cached peeked token (`next`), and the remaining stream of the `TokenSource`
(`tokens`; an empty list models a source that would block).  The parse-state
stack is not modelled: no tree or token operation touches it. -/
structure Parser (V : Type) where
  tokens : List Token
  nodes : List (PNode V)
  root : Nat
  node : Nat
  token : Option Token
  next : Option Token
deriving DecidableEq

/-- `NewParser`: a root node with Go's zero value of `V` (passed here as
`v0`) and start position offset 0, line 1, column 1; root and current node
point at it. -/
def NewParser {V : Type} (v0 : V) (tokens : List Token) : Parser V :=
  { tokens := tokens
    nodes := [{ value := v0
                start := { filename := "", offset := 0, line := 1, column := 1 }
                parent := none
                children := [] }]
    root := 0
    node := 0
    token := none
    next := none }

/-- `Parser.peek`: return the cached next token, else pull one from the token
source and cache it.  `none` models a source with nothing left to deliver
(the Go channel read would block). -/
def Parser.peek {V : Type} (p : Parser V) : Parser V × Option Token :=
  match p.next with
  | some t => (p, some t)
  | none =>
    match p.tokens with
    | t :: rest => ({ p with tokens := rest, next := some t }, some t)
    | [] => (p, none)

/-- `Parser.nextToken`: `peek`, clear the cache, and record the token as the
last consumed one. -/
def Parser.nextToken {V : Type} (p : Parser V) : Parser V × Option Token :=
  let pr := p.peek
  match pr.2 with
  | some t => ({ pr.1 with next := none, token := some t }, some t)
  | none => (pr.1, none)

/-- `Parser.newNode`: a fresh unattached node whose `start` is the start of
the last consumed token, or Go's zero `Position` (offset 0, line 0, column 0)
when no token has been consumed yet.  Returns the extended parser and the new
node's index. -/
def Parser.newNode {V : Type} (p : Parser V) (v : V) : Parser V × Nat :=
  let start :=
    match p.token with
    | some t => t.start
    | none => { filename := "", offset := 0, line := 0, column := 0 }
  ({ p with nodes := p.nodes ++ [{ value := v, start := start, parent := none, children := [] }] },
   p.nodes.length)

/-- `Parser.addNodeHere` (the context's `Node`): create a node, append it to
the current node's children, and set its parent back-reference; the current
node is unchanged. -/
def Parser.addNodeHere {V : Type} (p : Parser V) (v : V) : Parser V × Nat :=
  let pr := p.newNode v
  let n := pr.2
  let nodes1 := modifyAt pr.1.nodes p.node (fun nd => { nd with children := nd.children ++ [n] })
  let nodes2 := modifyAt nodes1 n (fun nd => { nd with parent := some p.node })
  ({ pr.1 with nodes := nodes2 }, n)

/-- `Parser.push`: `addNodeHere` and make the new node the current node. -/
def Parser.push {V : Type} (p : Parser V) (v : V) : Parser V × Nat :=
  let pr := p.addNodeHere v
  ({ pr.1 with node := pr.2 }, pr.2)

/-- `Parser.climb`: move the current node to its parent (no-op at the root),
returning the previous current node's index. -/
def Parser.climb {V : Type} (p : Parser V) : Parser V × Nat :=
  match p.nodes.get? p.node with
  | some cur =>
    match cur.parent with
    | some pid => ({ p with node := pid }, p.node)
    | none => (p, p.node)
  | none => (p, p.node)

/-- `Parser.replace`: build a fresh node via `newNode`, give it the current
node's parent link and children (swapping the current node for the new one in
the parent's children, first occurrence only, and rewiring each child's
parent), update the root reference if the current node is the root, make the
new node current, and return the old value.  The `none` result models the nil
dereference that a dangling current-node pointer would cause in Go (never the
case for parsers built through this interface). -/
def Parser.replace {V : Type} (p : Parser V) (v : V) : Parser V × Option V :=
  match p.nodes.get? p.node with
  | none => (p, none)
  | some cur =>
    let pr := p.newNode v
    let m := pr.2
    let nodes1 := modifyAt pr.1.nodes m (fun nd => { nd with parent := cur.parent })
    let nodes2 :=
      match cur.parent with
      | some pid =>
        modifyAt nodes1 pid (fun nd => { nd with children := replaceFirst nd.children p.node m })
      | none => nodes1
    let nodes3 := modifyAt nodes2 m (fun nd => { nd with children := cur.children })
    let nodes4 := cur.children.foldl
      (fun ns cid => modifyAt ns cid (fun nd => { nd with parent := some m })) nodes3
    let root1 := if p.node = p.root then m else p.root
    ({ pr.1 with nodes := nodes4, root := root1, node := m }, some cur.value)

/-! ### Helper lemmas about the cursor operations -/

theorem asString_nil : ([] : List Char).asString = "" := rfl

theorem asString_append (xs ys : List Char) :
    (xs ++ ys).asString = xs.asString ++ ys.asString := rfl

theorem take_split {α : Type} (m n : Nat) (l : List α) :
    l.take (m + n) = l.take m ++ (l.drop m).take n := by
  induction m generalizing l with
  | zero => simp
  | succ m ih =>
    cases l with
    | nil => simp
    | cons a l => simp [Nat.succ_add, ih]

theorem setErr_input (l : CustomLexer) (e : Option Err) : (l.setErr e).input = l.input := by
  unfold CustomLexer.setErr; split <;> rfl

theorem setErr_pos (l : CustomLexer) (e : Option Err) : (l.setErr e).pos = l.pos := by
  unfold CustomLexer.setErr; split <;> rfl

theorem setErr_cursor (l : CustomLexer) (e : Option Err) : (l.setErr e).cursor = l.cursor := by
  unfold CustomLexer.setErr; split <;> rfl

theorem setErr_b (l : CustomLexer) (e : Option Err) : (l.setErr e).b = l.b := by
  unfold CustomLexer.setErr; split <;> rfl

theorem setErr_buf (l : CustomLexer) (e : Option Err) : (l.setErr e).buf = l.buf := by
  unfold CustomLexer.setErr; split <;> rfl

theorem setErr_ioerr (l : CustomLexer) (e : Option Err) : (l.setErr e).ioerr = l.ioerr := by
  unfold CustomLexer.setErr; split <;> rfl

theorem setErr_of_err_ne (l : CustomLexer) (e : Option Err) (h : ¬l.err = none) :
    l.setErr e = l := by
  unfold CustomLexer.setErr
  rw [if_neg]
  simp [h]

theorem setErr_eof (l : CustomLexer) : l.setErr (some Err.eof) = l := by
  unfold CustomLexer.setErr
  rw [if_neg]
  simp

theorem setErr_none (l : CustomLexer) : l.setErr none = l := by
  unfold CustomLexer.setErr
  split
  · rename_i h
    cases l
    simp_all
  · rfl

theorem setErr_some (l : CustomLexer) (e : Err) (h : l.err = none) (he : ¬e = Err.eof) :
    l.setErr (some e) = { l with err := some e } := by
  unfold CustomLexer.setErr
  rw [if_pos]
  exact ⟨h, by simp [he]⟩

theorem peekN_snd_input (l : CustomLexer) (n : Nat) : ((l.peekN n).2).input = l.input := by
  unfold CustomLexer.peekN
  split
  · rfl
  · exact setErr_input ..

theorem peekN_snd_pos (l : CustomLexer) (n : Nat) : ((l.peekN n).2).pos = l.pos := by
  unfold CustomLexer.peekN
  split
  · rfl
  · exact setErr_pos ..

theorem peekN_snd_cursor (l : CustomLexer) (n : Nat) : ((l.peekN n).2).cursor = l.cursor := by
  unfold CustomLexer.peekN
  split
  · rfl
  · exact setErr_cursor ..

theorem peekN_snd_b (l : CustomLexer) (n : Nat) : ((l.peekN n).2).b = l.b := by
  unfold CustomLexer.peekN
  split
  · rfl
  · exact setErr_b ..

theorem peekN_snd_ioerr (l : CustomLexer) (n : Nat) : ((l.peekN n).2).ioerr = l.ioerr := by
  unfold CustomLexer.peekN
  split
  · rfl
  · exact setErr_ioerr ..

theorem peekN_of_err_ne (l : CustomLexer) (n : Nat) (h : ¬l.err = none) :
    l.peekN n = ([], l) := by
  unfold CustomLexer.peekN
  rw [if_pos h]

theorem peekN_fst (l : CustomLexer) (n : Nat) (h : l.err = none) :
    (l.peekN n).1 = l.input.take n := by
  unfold CustomLexer.peekN
  rw [if_neg]
  simp [h]

theorem peekN_snd_of_le (l : CustomLexer) (n : Nat) (h : l.err = none)
    (hn : n ≤ l.input.length) : (l.peekN n).2 = l := by
  unfold CustomLexer.peekN
  rw [if_neg (by simp [h])]
  simp only []
  rw [if_neg (show ¬l.input.length < n by omega)]
  exact setErr_none l

theorem peekN_fst_ne_nil (l : CustomLexer) (n : Nat) (h : ¬(l.peekN n).1 = []) :
    l.err = none ∧ ¬l.input = [] := by
  by_cases he : l.err = none
  · refine ⟨he, ?_⟩
    intro hi
    rw [peekN_fst l n he, hi] at h
    simp at h
  · rw [peekN_of_err_ne l n he] at h
    simp at h

theorem nextRune_of_err_ne (l : CustomLexer) (h : ¬l.err = none) : l.nextRune = (l, none) := by
  unfold CustomLexer.nextRune
  rw [if_pos h]

theorem nextRune_nil (l : CustomLexer) (h : l.err = none) (hi : l.input = []) :
    l.nextRune = (l.setErr (some (readErr l.ioerr)), none) := by
  unfold CustomLexer.nextRune
  rw [if_neg (by simp [h]), hi]

theorem lineColStep_offset (p : Position) (c : Char) : (lineColStep p c).offset = p.offset := by
  unfold lineColStep; split <;> rfl

theorem lineColStep_set_offset (p : Position) (c : Char) (o : Nat) :
    lineColStep { p with offset := o } c = { lineColStep p c with offset := o } := by
  unfold lineColStep; split <;> rfl

theorem nextRune_cons (l : CustomLexer) (c : Char) (rest : List Char) (h : l.err = none)
    (hi : l.input = c :: rest) :
    l.nextRune = ({ l with input := rest, pos := stepPos l.pos c, b := l.b.push c }, some c) := by
  unfold CustomLexer.nextRune
  rw [if_neg (by simp [h]), hi]
  unfold stepPos lineColStep
  by_cases hc : c = '\n'
  · simp only [hc, if_pos rfl]
  · simp only [if_neg hc]

theorem foldl_lineColStep_set_offset (cs : List Char) (p : Position) (o : Nat) :
    cs.foldl lineColStep { p with offset := o } = { cs.foldl lineColStep p with offset := o } := by
  induction cs generalizing p with
  | nil => rfl
  | cons c cs ih =>
    simp only [List.foldl_cons, lineColStep_set_offset, ih]

theorem chunkFold (cs : List Char) (p : Position) :
    cs.foldl lineColStep { p with offset := p.offset + cs.length } = cs.foldl stepPos p := by
  induction cs generalizing p with
  | nil => rfl
  | cons c cs ih =>
    simp only [List.foldl_cons, List.length_cons]
    rw [lineColStep_set_offset]
    rw [show p.offset + (cs.length + 1) = p.offset + 1 + cs.length from by omega]
    rw [← ih (stepPos p c)]
    congr 1
    rw [stepPos]
    rw [lineColStep_set_offset p c (p.offset + 1)]

theorem consumeChunk_spec (l : CustomLexer) (disc : Bool) (k : Nat) (hk : k ≤ l.input.length) :
    consumeChunk l disc (l.input.take k) =
      { l with
        input := l.input.drop k
        pos := (l.input.take k).foldl stepPos l.pos
        b := if disc then l.b else l.b ++ (l.input.take k).asString } := by
  unfold consumeChunk
  simp only []
  rw [chunkFold]
  have hlen : (l.input.take k).length = k := by
    simp only [List.length_take]
    omega
  rw [hlen]

theorem advanceLoop_spec (disc : Bool) :
    ∀ (n : Nat) (l : CustomLexer) (acc : Nat), l.err = none →
    CustomLexer.advanceLoop disc l n acc =
      ({ l with
          input := l.input.drop n
          pos := (l.input.take n).foldl stepPos l.pos
          b := if disc then l.b else l.b ++ (l.input.take n).asString
          err := if l.input.length < n then
                   (match l.ioerr with
                    | some m => some (Err.ioError ("peeking input: " ++ m))
                    | none => none)
                 else none },
       acc + min n l.input.length) := by
  intro n
  induction n using Nat.strong_induction_on with
  | _ n ih =>
    intro l acc herr
    obtain ⟨buf, input, ioerr, b, pos, cursor, err⟩ := l
    simp only at herr
    subst herr
    cases n with
    | zero =>
      simp [CustomLexer.advanceLoop]
      cases disc <;> simp [asString_nil]
    | succ m =>
      rw [CustomLexer.advanceLoop]
      cases input with
      | nil =>
        have h16 : 0 < min (m + 1) 16 := by omega
        cases ioerr with
        | some msg =>
          simp [CustomLexer.setErr, asString_nil, h16]
        | none =>
          simp [consumeChunk, asString_nil, h16]
      | cons c rest =>
        have hz : ¬min ((c :: rest : List Char)).length (m + 1) = 0 := by
          simp only [List.length_cons]
          omega
        rw [if_neg hz]
        have hle : min ((c :: rest : List Char)).length (m + 1) ≤ (c :: rest).length :=
          Nat.min_le_left ..
        rw [if_neg (show ¬((c :: rest : List Char)).length <
          min ((c :: rest : List Char)).length (m + 1) by omega)]
        set toRead := min ((c :: rest : List Char)).length (m + 1) with htr
        have hlen2 : ((c :: rest).take toRead).length = toRead := by
          simp only [List.length_take]
          omega
        rw [hlen2,
          consumeChunk_spec ⟨buf, c :: rest, ioerr, b, pos, cursor, none⟩ disc toRead hle]
        have htr1 : 1 ≤ toRead := by omega
        have htrm : toRead ≤ m + 1 := Nat.min_le_right ..
        have hihres := ih (m + 1 - toRead) (by omega)
          ⟨buf, (c :: rest).drop toRead, ioerr,
            if disc then b else b ++ ((c :: rest).take toRead).asString,
            ((c :: rest).take toRead).foldl stepPos pos, cursor, none⟩
          (acc + toRead) rfl
        simp only [] at hihres ⊢
        rw [hihres]
        have hsum : toRead + (m + 1 - toRead) = m + 1 := by omega
        have hdrop : ((c :: rest).drop toRead).drop (m + 1 - toRead) =
            (c :: rest).drop (m + 1) := by
          rw [List.drop_drop, hsum]
        have htake : (c :: rest).take toRead ++ ((c :: rest).drop toRead).take (m + 1 - toRead) =
            (c :: rest).take (m + 1) := by
          rw [← take_split, hsum]
        rw [Prod.mk.injEq]
        refine ⟨?_, ?_⟩
        · rw [CustomLexer.mk.injEq]
          refine ⟨rfl, hdrop, rfl, ?_, ?_, rfl, ?_⟩
          · cases disc with
            | true => simp
            | false =>
              simp only [Bool.false_eq_true, if_false]
              rw [String.append_assoc, ← asString_append, htake]
          · rw [← htake, List.foldl_append]
          · simp only [List.length_drop]
            by_cases hcond : ((c :: rest : List Char)).length < m + 1
            · rw [if_pos (by omega), if_pos hcond]
            · rw [if_neg (by omega), if_neg hcond]
        · simp only [List.length_drop]
          omega

theorem advance_of_err_ne (l : CustomLexer) (n : Nat) (d : Bool) (h : ¬l.err = none) :
    l.advance n d = (l, 0) := by
  unfold CustomLexer.advance
  rw [if_pos h]

theorem advance_false_spec (l : CustomLexer) (n : Nat) (h : l.err = none) :
    l.advance n false =
      ({ l with
          input := l.input.drop n
          pos := (l.input.take n).foldl stepPos l.pos
          b := l.b ++ (l.input.take n).asString
          err := if l.input.length < n then
                   (match l.ioerr with
                    | some m => some (Err.ioError ("peeking input: " ++ m))
                    | none => none)
                 else none },
       min n l.input.length) := by
  unfold CustomLexer.advance
  rw [if_neg (by simp [h])]
  simp only []
  rw [advanceLoop_spec false n l 0 h]
  simp

theorem advance_true_spec (l : CustomLexer) (n : Nat) (h : l.err = none) :
    l.advance n true =
      ({ l with
          input := l.input.drop n
          pos := (l.input.take n).foldl stepPos l.pos
          cursor := (l.input.take n).foldl stepPos l.pos
          b := ""
          err := if l.input.length < n then
                   (match l.ioerr with
                    | some m => some (Err.ioError ("peeking input: " ++ m))
                    | none => none)
                 else none },
       min n l.input.length) := by
  unfold CustomLexer.advance
  rw [if_neg (by simp [h])]
  simp only []
  rw [advanceLoop_spec true n l 0 h]
  unfold CustomLexer.ignore
  simp

theorem modifyAt_get_self {α : Type} (ns : List α) (i : Nat) (f : α → α) :
    (modifyAt ns i f).get? i = (ns.get? i).map f := by
  unfold modifyAt
  cases h : ns.get? i with
  | none =>
    simp only [Option.map_none']
    exact h
  | some a =>
    obtain ⟨hlt, -⟩ := List.get?_eq_some.mp h
    simp only [Option.map_some', List.get?_eq_getElem?]
    exact List.getElem?_set_self hlt

theorem modifyAt_get_ne {α : Type} (ns : List α) (i j : Nat) (f : α → α) (h : ¬i = j) :
    (modifyAt ns i f).get? j = ns.get? j := by
  unfold modifyAt
  cases hg : ns.get? i with
  | none => rfl
  | some a =>
    simp only [List.get?_eq_getElem?]
    exact List.getElem?_set_ne h

theorem modifyAt_length {α : Type} (ns : List α) (i : Nat) (f : α → α) :
    (modifyAt ns i f).length = ns.length := by
  unfold modifyAt
  cases hg : ns.get? i with
  | none => rfl
  | some a => simp

/-! ### Claim theorems -/

/-- C1 (amended): in `LexParse`'s error aggregation, a lexer error that is
neither `nil`, `context.Canceled` nor `io.EOF` takes precedence and is the
error returned to the caller even when the parser also failed; the parser's
error is returned exactly when the lexer's error is `nil`, `context.Canceled`
or `io.EOF`. -/
theorem C1_error_aggregation (lexErr parseErr : Option Err) :
    (¬lexErr = none → ¬lexErr = some Err.canceled → ¬lexErr = some Err.eof →
      lexParseErr lexErr parseErr = lexErr)
    ∧ ((lexErr = none ∨ lexErr = some Err.canceled ∨ lexErr = some Err.eof) →
      lexParseErr lexErr parseErr = parseErr) := by
  unfold lexParseErr
  constructor
  · intro h1 h2 h3
    rw [if_neg (by simp [h1, h2, h3])]
  · intro h
    rw [if_pos h]

/-- C1 witness: a genuine lexer error wins over a parser error; an `io.EOF`
lexer error yields the parser's error (both obtained from
`C1_error_aggregation`). -/
theorem C1_witness :
    lexParseErr (some (Err.ioError "read failed")) (some (Err.parseError "unexpected token"))
      = some (Err.ioError "read failed")
    ∧ lexParseErr (some Err.eof) (some (Err.parseError "unexpected token"))
      = some (Err.parseError "unexpected token") :=
  ⟨(C1_error_aggregation _ _).1 (by simp) (by simp) (by simp),
   (C1_error_aggregation _ _).2 (Or.inr (Or.inr rfl))⟩

/-- C1 counterexample: when both the lexer and the parser finish with a
non-nil error and the lexer's error is a genuine I/O error, `LexParse`
returns the lexer's error, not the parser's — refuting the claim that the
parser's error always takes precedence. -/
theorem C1_counterexample :
    ¬lexParseErr (some (Err.ioError "read failed")) (some (Err.parseError "unexpected token"))
      = some (Err.parseError "unexpected token") := by
  simp [lexParseErr]

/-- C5 (amended): after every `ignore`, and after every `emit` made while the
sticky error is unset, the token cursor equals the reader position, the
in-progress text is empty and the width is 0.  (When the sticky error is set,
`emit` is a no-op and does not move the cursor — see C10.) -/
theorem C5_cursor_after_emit_ignore (l : CustomLexer) (typ : Int) :
    ((l.ignore).cursor = (l.ignore).pos ∧ (l.ignore).b = "" ∧ (l.ignore).width = 0)
    ∧ (l.err = none →
        (l.emit typ).2.cursor = (l.emit typ).2.pos ∧ (l.emit typ).2.b = ""
        ∧ (l.emit typ).2.width = 0) := by
  constructor
  · refine ⟨rfl, rfl, ?_⟩
    unfold CustomLexer.width CustomLexer.ignore
    simp
  · intro h
    unfold CustomLexer.emit
    rw [if_neg (by simp [h])]
    refine ⟨rfl, rfl, ?_⟩
    unfold CustomLexer.width CustomLexer.ignore
    simp

/-- C5 witness: `C5_cursor_after_emit_ignore` applied to a fresh lexer on
input `"a"`, whose sticky error is unset. -/
theorem C5_witness :
    (NewCustomLexer ['a'] none).err = none
    ∧ (((NewCustomLexer ['a'] none).emit 1).2.cursor = ((NewCustomLexer ['a'] none).emit 1).2.pos
       ∧ ((NewCustomLexer ['a'] none).emit 1).2.b = ""
       ∧ ((NewCustomLexer ['a'] none).emit 1).2.width = 0) :=
  ⟨rfl, (C5_cursor_after_emit_ignore (NewCustomLexer ['a'] none) 1).2 rfl⟩

/-- C5 counterexample: consume `'a'` with `nextRune`, then hit the reader's
I/O error with a second `nextRune` (recording the sticky error); the
subsequent `emit` is a no-op, so the token cursor still differs from the
reader position and the in-progress text is `"a"`, not empty — refuting the
claim for this prior sequence of cursor operations. -/
theorem C5_counterexample :
    ¬(((((NewCustomLexer ['a'] (some "boom")).nextRune).1.nextRune).1.emit 7).2.cursor
      = ((((NewCustomLexer ['a'] (some "boom")).nextRune).1.nextRune).1.emit 7).2.pos)
    ∧ ¬(((((NewCustomLexer ['a'] (some "boom")).nextRune).1.nextRune).1.emit 7).2.b = "") := by
  decide

/-- C7: `find` and `discardTo` return the empty string immediately, leaving
the lexer (reader position, token cursor and in-progress buffer) unchanged,
whenever every needle in the query is empty (in particular for an empty
query). -/
theorem C7_empty_needles (l : CustomLexer) (q : List String) (fuel : Nat)
    (h : ∀ s ∈ q, s = "") :
    l.find fuel q = some ("", l) ∧ l.discardTo fuel q = some ("", l) := by
  have hm : maxQueryLen q = 0 := by
    unfold maxQueryLen
    have haux : ∀ (q2 : List String) (m : Nat), (∀ s ∈ q2, s = "") →
        q2.foldl (fun m s => if s.length > m then s.length else m) m = m := by
      intro q2
      induction q2 with
      | nil =>
        intro m _
        rfl
      | cons s q2 ih =>
        intro m hq
        have hs : s = "" := hq s (by simp)
        simp only [List.foldl_cons, hs]
        rw [if_neg (by simp)]
        exact ih m (fun t ht => hq t (by simp [ht]))
    exact haux q 0 h
  constructor
  · unfold CustomLexer.find
    rw [if_pos hm]
  · unfold CustomLexer.discardTo
    rw [if_pos hm]

/-- C7 witness: `C7_empty_needles` on a fresh lexer with the all-empty
query `["", ""]`. -/
theorem C7_witness :
    (∀ s ∈ ["", ""], s = "")
    ∧ (NewCustomLexer ['a'] none).find 3 ["", ""] = some ("", NewCustomLexer ['a'] none)
    ∧ (NewCustomLexer ['a'] none).discardTo 3 ["", ""]
        = some ("", NewCustomLexer ['a'] none) := by
  refine ⟨by decide, ?_, ?_⟩
  · exact (C7_empty_needles (NewCustomLexer ['a'] none) ["", ""] 3 (by decide)).1
  · exact (C7_empty_needles (NewCustomLexer ['a'] none) ["", ""] 3 (by decide)).2

/-- C9: once an error is recorded, the state is sticky — `peekN` returns no
runes, `peek` returns the `EOF` sentinel, `advance`/discard return 0 and move
nothing, `nextRune` returns the `EOF` sentinel, and no later `setErr` changes
the first recorded error (so the `Err` accessor keeps returning it); and
`setErr` never records `io.EOF` as an error. -/
theorem C9_sticky_error (l : CustomLexer) (h : ¬l.err = none) :
    (∀ n, l.peekN n = ([], l))
    ∧ l.peek = (none, l)
    ∧ (∀ n d, l.advance n d = (l, 0))
    ∧ l.nextRune = (l, none)
    ∧ (∀ e, l.setErr e = l)
    ∧ (∀ l2 : CustomLexer, l2.err = none → l2.setErr (some Err.eof) = l2) := by
  refine ⟨fun n => peekN_of_err_ne l n h, ?_, fun n d => advance_of_err_ne l n d h,
    nextRune_of_err_ne l h, fun e => setErr_of_err_ne l e h, fun l2 _ => setErr_eof l2⟩
  unfold CustomLexer.peek
  rw [peekN_of_err_ne l 1 h]

/-- C9 witness: `C9_sticky_error` applied to a lexer whose sticky error has
been recorded. -/
theorem C9_witness :
    ¬(CustomLexer.mk [] ['b'] none "a" ⟨"", 1, 1, 2⟩ ⟨"", 0, 1, 1⟩
        (some (Err.ioError "boom"))).err = none
    ∧ (CustomLexer.mk [] ['b'] none "a" ⟨"", 1, 1, 2⟩ ⟨"", 0, 1, 1⟩
        (some (Err.ioError "boom"))).nextRune
      = (CustomLexer.mk [] ['b'] none "a" ⟨"", 1, 1, 2⟩ ⟨"", 0, 1, 1⟩
          (some (Err.ioError "boom")), none) :=
  ⟨by decide,
   (C9_sticky_error _ (by decide)).2.2.2.1⟩

/-- C10: when the sticky error is already set, `emit`
(`CustomLexerContext.Emit` delegates to it unchanged) returns `nil` and
leaves the whole lexer — emitted-token buffer, token cursor, reader position
and in-progress text — untouched. -/
theorem C10_emit_noop_on_error (l : CustomLexer) (typ : Int) (h : ¬l.err = none) :
    l.emit typ = (none, l) := by
  unfold CustomLexer.emit
  rw [if_pos h]

/-- C10 witness: `C10_emit_noop_on_error` on a lexer in the sticky error
state with a non-empty in-progress text. -/
theorem C10_witness :
    ¬(CustomLexer.mk [] [] none "ab" ⟨"", 2, 1, 3⟩ ⟨"", 0, 1, 1⟩
        (some (Err.ioError "boom"))).err = none
    ∧ (CustomLexer.mk [] [] none "ab" ⟨"", 2, 1, 3⟩ ⟨"", 0, 1, 1⟩
        (some (Err.ioError "boom"))).emit 7
      = (none, CustomLexer.mk [] [] none "ab" ⟨"", 2, 1, 3⟩ ⟨"", 0, 1, 1⟩
          (some (Err.ioError "boom"))) :=
  ⟨by decide, C10_emit_noop_on_error _ 7 (by decide)⟩

/-- C3 (amended): a node created by `newNode`, `Node` (add-node) or `push`
before any token has been consumed has Go's zero `Position` — offset 0,
line 0, column 0 — as its start (not line 1, column 1); once a token has been
consumed, the created node's start is the start of the last *consumed* token:
`peek` caches into `next` and never changes the last consumed token, which
only `nextToken` sets. -/
theorem C3_node_start {V : Type} (p : Parser V) (v : V) :
    (p.token = none →
      (p.newNode v).1.nodes.get? (p.newNode v).2
        = some ⟨v, ⟨"", 0, 0, 0⟩, none, []⟩)
    ∧ (∀ tk, p.token = some tk →
      (p.newNode v).1.nodes.get? (p.newNode v).2 = some ⟨v, tk.start, none, []⟩)
    ∧ (p.node < p.nodes.length →
      (p.addNodeHere v).1.nodes.get? (p.addNodeHere v).2
        = some ⟨v, (match p.token with
                    | some tk => tk.start
                    | none => ⟨"", 0, 0, 0⟩), some p.node, []⟩
      ∧ (p.push v).1.nodes.get? (p.push v).2
        = some ⟨v, (match p.token with
                    | some tk => tk.start
                    | none => ⟨"", 0, 0, 0⟩), some p.node, []⟩)
    ∧ ((p.peek).1.token = p.token)
    ∧ (∀ p2 t, p.nextToken = (p2, some t) → p2.token = some t) := by
  refine ⟨?_, ?_, ?_, ?_, ?_⟩
  · intro htok
    unfold Parser.newNode
    rw [htok]
    exact List.get?_concat_length _ _
  · intro tk htok
    unfold Parser.newNode
    rw [htok]
    exact List.get?_concat_length _ _
  · intro hlt
    have hne : ¬p.node = p.nodes.length := by omega
    have hadd : (p.addNodeHere v).1.nodes.get? (p.addNodeHere v).2
        = some ⟨v, (match p.token with
                    | some tk => tk.start
                    | none => ⟨"", 0, 0, 0⟩), some p.node, []⟩ := by
      unfold Parser.addNodeHere Parser.newNode
      simp only []
      rw [modifyAt_get_self, modifyAt_get_ne _ _ _ _ hne, List.get?_concat_length]
      rfl
    exact ⟨hadd, hadd⟩
  · unfold Parser.peek
    cases hn : p.next with
    | some t => rfl
    | none =>
      cases ht : p.tokens with
      | nil => rfl
      | cons t rest => rfl
  · intro p2 t h
    unfold Parser.nextToken at h
    simp only [] at h
    cases hpk : (Parser.peek p).2 with
    | some t2 =>
      rw [hpk] at h
      simp only [Prod.mk.injEq] at h
      obtain ⟨h1, h2⟩ := h
      rw [← h1]
      exact h2
    | none =>
      rw [hpk] at h
      simp only [Prod.mk.injEq] at h
      exact absurd h.2 (by simp)

/-- C3 witness: `C3_node_start` applied to a fresh parser (no token consumed
yet): the node created by `newNode` has the zero start position. -/
theorem C3_witness :
    (NewParser (0 : Int) []).token = none
    ∧ ((NewParser (0 : Int) []).newNode 5).1.nodes.get?
        ((NewParser (0 : Int) []).newNode 5).2
      = some ⟨5, ⟨"", 0, 0, 0⟩, none, []⟩ :=
  ⟨rfl, (C3_node_start (NewParser (0 : Int) []) 5).1 rfl⟩

/-- C3 counterexample: on a fresh parser, `push` creates a node whose start
is `⟨"", 0, 0, 0⟩` — line 0 and column 0, not the claimed line 1, column 1. -/
theorem C3_counterexample :
    ((NewParser (0 : Int) []).push 5).1.nodes.get? 1
      = some ⟨5, ⟨"", 0, 0, 0⟩, some 0, []⟩
    ∧ ¬((⟨"", 0, 0, 0⟩ : Position).line = 1)
    ∧ ¬((⟨"", 0, 0, 0⟩ : Position).column = 1) := by
  decide

theorem rewire_get_not_mem {V : Type} (m : Nat) :
    ∀ (cids : List Nat) (ns : List (PNode V)) (j : Nat), j ∉ cids →
    (cids.foldl (fun ns cid => modifyAt ns cid fun nd => { nd with parent := some m }) ns).get? j
      = ns.get? j := by
  intro cids
  induction cids with
  | nil =>
    intro ns j _
    rfl
  | cons c cids ih =>
    intro ns j hj
    simp only [List.foldl_cons]
    rw [ih _ j (fun hm => hj (List.mem_cons.mpr (Or.inr hm))),
      modifyAt_get_ne _ _ _ _ (fun hc => hj (List.mem_cons.mpr (Or.inl hc.symm)))]

theorem rewire_get_mem {V : Type} (m : Nat) :
    ∀ (cids : List Nat) (ns : List (PNode V)) (j : Nat), cids.Nodup → j ∈ cids →
    (cids.foldl (fun ns cid => modifyAt ns cid fun nd => { nd with parent := some m }) ns).get? j
      = (ns.get? j).map fun nd => { nd with parent := some m } := by
  intro cids
  induction cids with
  | nil =>
    intro ns j _ hj
    simp at hj
  | cons c cids ih =>
    intro ns j hnd hj
    simp only [List.foldl_cons]
    by_cases hjc : j = c
    · subst hjc
      rw [rewire_get_not_mem m cids _ j (List.nodup_cons.mp hnd).1, modifyAt_get_self]
    · have hjm : j ∈ cids := by
        rcases List.mem_cons.mp hj with h1 | h2
        · exact absurd h1 hjc
        · exact h2
      rw [ih _ j (List.nodup_cons.mp hnd).2 hjm,
        modifyAt_get_ne _ _ _ _ (fun hc => hjc hc.symm)]

/-- C8 (amended): `replace(v)` returns the current node's previous value and
installs a fresh node that keeps the current node's parent link and ordered
children, rewires each child's parent to the new node, swaps the current node
for the new one in its parent's children (first occurrence), updates the root
reference when the current node is the root, makes the new node current, and
leaves every other node — including the detached old node — untouched.  The
new node's `start`, however, is taken from the parser's last consumed token
(Go's zero `Position` when none), not from the node it replaces, so the tree
can change beyond the replaced value. -/
theorem C8_replace {V : Type} (p : Parser V) (v : V) (cur : PNode V)
    (hcur : p.nodes.get? p.node = some cur)
    (hnd : cur.children.Nodup)
    (hself : p.node ∉ cur.children)
    (hchlt : ∀ c ∈ cur.children, c < p.nodes.length)
    (hpar : ∀ pid, cur.parent = some pid →
      pid < p.nodes.length ∧ pid ∉ cur.children ∧ ¬pid = p.node) :
    (p.replace v).2 = some cur.value
    ∧ (p.replace v).1.node = p.nodes.length
    ∧ (p.replace v).1.root = (if p.node = p.root then p.nodes.length else p.root)
    ∧ (p.replace v).1.nodes.get? p.nodes.length
        = some ⟨v, (match p.token with
                    | some tk => tk.start
                    | none => ⟨"", 0, 0, 0⟩), cur.parent, cur.children⟩
    ∧ (∀ c ∈ cur.children, (p.replace v).1.nodes.get? c
        = (p.nodes.get? c).map fun nd => { nd with parent := some p.nodes.length })
    ∧ (∀ pid, cur.parent = some pid → (p.replace v).1.nodes.get? pid
        = (p.nodes.get? pid).map fun nd =>
            { nd with children := replaceFirst nd.children p.node p.nodes.length })
    ∧ (p.replace v).1.nodes.get? p.node = some cur
    ∧ (∀ j, ¬j = p.node → ¬j = p.nodes.length → j ∉ cur.children →
        ¬cur.parent = some j → (p.replace v).1.nodes.get? j = p.nodes.get? j)
    ∧ (p.replace v).1.token = p.token ∧ (p.replace v).1.next = p.next
    ∧ (p.replace v).1.tokens = p.tokens := by
  have hlt : p.node < p.nodes.length := by
    obtain ⟨h, -⟩ := List.get?_eq_some.mp hcur
    exact h
  have hnm : ¬p.node = p.nodes.length := by omega
  have harena : ∀ (j : Nat) (nd0 : PNode V), ¬j = p.nodes.length →
      (p.nodes ++ [nd0]).get? j = p.nodes.get? j := by
    intro j nd0 hj
    by_cases hjlt : j < p.nodes.length
    · exact List.get?_append hjlt
    · rw [List.get?_eq_none.mpr (by simp; omega), List.get?_eq_none.mpr (by omega)]
  unfold Parser.replace
  rw [hcur]
  unfold Parser.newNode
  simp only []
  refine ⟨by trivial, by trivial, by trivial, ?_, ?_, ?_, ?_, ?_, by trivial, by trivial,
    by trivial⟩
  · -- the new node at index `p.nodes.length`
    have hmn : p.nodes.length ∉ cur.children := fun hm => absurd (hchlt _ hm) (by omega)
    rw [rewire_get_not_mem _ _ _ _ hmn, modifyAt_get_self]
    cases hp : cur.parent with
    | none =>
      simp only []
      rw [modifyAt_get_self, List.get?_concat_length]
      rfl
    | some pid =>
      have hplt := (hpar pid hp).1
      simp only []
      rw [modifyAt_get_ne _ _ _ _ (show ¬pid = p.nodes.length by omega),
        modifyAt_get_self, List.get?_concat_length]
      rfl
  · -- each child's parent is rewired to the new node
    intro c hc
    have hclt : c < p.nodes.length := hchlt c hc
    rw [rewire_get_mem _ _ _ _ hnd hc,
      modifyAt_get_ne _ _ _ _ (show ¬p.nodes.length = c by omega)]
    cases hp : cur.parent with
    | none =>
      simp only []
      rw [modifyAt_get_ne _ _ _ _ (show ¬p.nodes.length = c by omega), harena c _ (by omega)]
    | some pid =>
      have hpnotch := (hpar pid hp).2.1
      simp only []
      rw [modifyAt_get_ne _ _ _ _ (show ¬pid = c from fun h => hpnotch (by rw [h]; exact hc)),
        modifyAt_get_ne _ _ _ _ (show ¬p.nodes.length = c by omega), harena c _ (by omega)]
  · -- the parent's children swap the old node for the new one
    intro pid hp
    obtain ⟨hplt, hpnotch, hpne⟩ := hpar pid hp
    rw [rewire_get_not_mem _ _ _ _ hpnotch,
      modifyAt_get_ne _ _ _ _ (show ¬p.nodes.length = pid by omega), hp]
    simp only []
    rw [modifyAt_get_self, modifyAt_get_ne _ _ _ _ (show ¬p.nodes.length = pid by omega),
      harena pid _ (by omega)]
  · -- the detached old node is untouched
    rw [rewire_get_not_mem _ _ _ _ hself,
      modifyAt_get_ne _ _ _ _ (show ¬p.nodes.length = p.node by omega)]
    cases hp : cur.parent with
    | none =>
      simp only []
      rw [modifyAt_get_ne _ _ _ _ (show ¬p.nodes.length = p.node by omega), harena _ _ hnm]
      exact hcur
    | some pid =>
      have hpne := (hpar pid hp).2.2
      simp only []
      rw [modifyAt_get_ne _ _ _ _ hpne,
        modifyAt_get_ne _ _ _ _ (show ¬p.nodes.length = p.node by omega), harena _ _ hnm]
      exact hcur
  · -- every other node is untouched
    intro j hjnode hjm hjch hjpar
    rw [rewire_get_not_mem _ _ _ _ hjch,
      modifyAt_get_ne _ _ _ _ (show ¬p.nodes.length = j from fun h => hjm h.symm)]
    cases hp : cur.parent with
    | none =>
      simp only []
      rw [modifyAt_get_ne _ _ _ _ (show ¬p.nodes.length = j from fun h => hjm h.symm),
        harena _ _ hjm]
    | some pid =>
      simp only []
      rw [modifyAt_get_ne _ _ _ _ (show ¬pid = j from fun h => hjpar (by rw [hp, h])),
        modifyAt_get_ne _ _ _ _ (show ¬p.nodes.length = j from fun h => hjm h.symm),
        harena _ _ hjm]

/-- C8 witness: `C8_replace` applied to a two-node tree (root with one child)
with no token consumed: replacing the root returns its previous value. -/
theorem C8_witness :
    ((Parser.mk [] [⟨(3 : Int), ⟨"", 0, 1, 1⟩, none, [1]⟩,
        ⟨5, ⟨"", 0, 1, 1⟩, some 0, []⟩] 0 0 none none).replace 9).2 = some 3 :=
  (C8_replace (Parser.mk [] [⟨(3 : Int), ⟨"", 0, 1, 1⟩, none, [1]⟩,
      ⟨5, ⟨"", 0, 1, 1⟩, some 0, []⟩] 0 0 none none)
    9 ⟨3, ⟨"", 0, 1, 1⟩, none, [1]⟩ rfl (by decide) (by decide)
    (by decide) (fun pid h => Option.noConfusion h)).1

/-- C8 counterexample: with a consumed token starting at offset 5 (line 2,
column 3), replacing the single root node (whose start is offset 0, line 1,
column 1) yields a current node whose start is the token's start — the tree
changed beyond the replaced value, refuting the claim that everything but the
value is preserved. -/
theorem C8_counterexample :
    ((Parser.mk [] [⟨(7 : Int), ⟨"", 0, 1, 1⟩, none, []⟩] 0 0
        (some ⟨1, "x", ⟨"", 5, 2, 3⟩, ⟨"", 6, 2, 4⟩⟩) none).replace 9).1.nodes.get?
      ((Parser.mk [] [⟨(7 : Int), ⟨"", 0, 1, 1⟩, none, []⟩] 0 0
        (some ⟨1, "x", ⟨"", 5, 2, 3⟩, ⟨"", 6, 2, 4⟩⟩) none).replace 9).1.node
      = some ⟨9, ⟨"", 5, 2, 3⟩, none, []⟩
    ∧ ¬((⟨"", 5, 2, 3⟩ : Position) = ⟨"", 0, 1, 1⟩) := by
  decide

theorem take_min {α : Type} (n : Nat) (l : List α) : l.take n = l.take (min n l.length) := by
  by_cases h : n ≤ l.length
  · rw [Nat.min_eq_left h]
  · rw [Nat.min_eq_right (by omega), List.take_of_length_le (by omega), List.take_length]

theorem findLoop_pos (q : List String) (maxLen : Nat) :
    ∀ (fuel : Nat) (l : CustomLexer) (r : String × CustomLexer),
    CustomLexer.findLoop q maxLen fuel l = some r →
    ∃ k, k ≤ l.input.length ∧ r.2.pos = (l.input.take k).foldl stepPos l.pos := by
  intro fuel
  induction fuel with
  | zero =>
    intro l r h
    exact absurd h (by simp [CustomLexer.findLoop])
  | succ fuel ih =>
    intro l r h
    rw [CustomLexer.findLoop] at h
    by_cases h0 : (l.peekN maxLen).1.length = 0
    · rw [if_pos h0] at h
      injection h with h2
      subst h2
      exact ⟨0, by omega, by simp [peekN_snd_pos]⟩
    · rw [if_neg h0] at h
      cases hfind : q.find? (fun qj => List.isPrefixOf qj.data (l.peekN maxLen).1) with
      | some qj =>
        rw [hfind] at h
        injection h with h2
        subst h2
        exact ⟨0, by omega, by simp [peekN_snd_pos]⟩
      | none =>
        rw [hfind] at h
        obtain ⟨herr, hinp⟩ := peekN_fst_ne_nil l maxLen (by
          intro hnil
          rw [hnil] at h0
          exact h0 rfl)
        by_cases he2 : ((l.peekN maxLen).2).err = none
        · cases hc : l.input with
          | nil => exact absurd hc hinp
          | cons c rest =>
            rw [nextRune_cons ((l.peekN maxLen).2) c rest he2
              (by rw [peekN_snd_input]; exact hc)] at h
            simp only [] at h
            obtain ⟨k2, hk2, hpos⟩ := ih _ r h
            simp only [] at hk2 hpos
            rw [peekN_snd_pos] at hpos
            refine ⟨k2 + 1, ?_, ?_⟩
            · simp only [List.length_cons]
              omega
            · rw [hpos]
              simp only [List.take_succ_cons, List.foldl_cons]
        · rw [nextRune_of_err_ne _ he2] at h
          obtain ⟨k2, hk2, hpos⟩ := ih _ r h
          rw [peekN_snd_input] at hk2
          rw [peekN_snd_input, peekN_snd_pos] at hpos
          exact ⟨k2, hk2, hpos⟩

theorem discardToLoop_pos (q : List String) (maxLen : Nat) :
    ∀ (fuel : Nat) (l : CustomLexer) (r : String × CustomLexer),
    CustomLexer.discardToLoop q maxLen fuel l = some r →
    ∃ k, k ≤ l.input.length ∧ r.2.pos = (l.input.take k).foldl stepPos l.pos := by
  intro fuel
  induction fuel with
  | zero =>
    intro l r h
    exact absurd h (by simp [CustomLexer.discardToLoop])
  | succ fuel ih =>
    intro l r h
    rw [CustomLexer.discardToLoop] at h
    simp only [] at h
    have hadvpos : ∀ (n : Nat) (s : String),
        (if (((l.peekN (max l.input.length maxLen)).2).advance n true).2 < n then
          some (s, (((l.peekN (max l.input.length maxLen)).2).advance n true).1)
         else some (s, (((l.peekN (max l.input.length maxLen)).2).advance n true).1))
          = some r →
        ∃ k, k ≤ l.input.length ∧ r.2.pos = (l.input.take k).foldl stepPos l.pos := by
      intro n s hr
      have hr2 : r.2 = (((l.peekN (max l.input.length maxLen)).2).advance n true).1 := by
        by_cases hcond : (((l.peekN (max l.input.length maxLen)).2).advance n true).2 < n
        · rw [if_pos hcond] at hr
          injection hr with hr
          rw [← hr]
        · rw [if_neg hcond] at hr
          injection hr with hr
          rw [← hr]
      by_cases he2 : ((l.peekN (max l.input.length maxLen)).2).err = none
      · rw [advance_true_spec _ n he2] at hr2
        refine ⟨min n l.input.length, by omega, ?_⟩
        rw [hr2]
        simp only [peekN_snd_input, peekN_snd_pos]
        rw [← take_min]
      · rw [advance_of_err_ne _ n true he2] at hr2
        exact ⟨0, by omega, by rw [hr2]; simp [peekN_snd_pos]⟩
    cases hscan : scanMatch q maxLen (l.peekN (max l.input.length maxLen)).1 with
    | some iq =>
      rw [hscan] at h
      obtain ⟨i, qj⟩ := iq
      simp only [] at h
      by_cases hcond : (((l.peekN (max l.input.length maxLen)).2).advance i true).2 < i
      · rw [if_pos hcond] at h
        exact hadvpos i "" (by rw [if_pos hcond]; exact h)
      · rw [if_neg hcond] at h
        exact hadvpos i qj (by rw [if_neg hcond]; exact h)
    | none =>
      rw [hscan] at h
      set toDiscard := if ((l.peekN (max l.input.length maxLen)).1.length + 1) - maxLen = 0
        then 1
        else ((l.peekN (max l.input.length maxLen)).1.length + 1) - maxLen with htd
      have htd1 : 1 ≤ toDiscard := by
        rw [htd]
        split <;> omega
      by_cases hcond :
          (((l.peekN (max l.input.length maxLen)).2).advance toDiscard true).2 < toDiscard
      · rw [if_pos hcond] at h
        exact hadvpos toDiscard "" (by rw [if_pos hcond]; exact h)
      · rw [if_neg hcond] at h
        have he2 : ((l.peekN (max l.input.length maxLen)).2).err = none := by
          by_contra he
          rw [advance_of_err_ne _ toDiscard true he] at hcond
          simp only [] at hcond
          omega
        rw [advance_true_spec _ toDiscard he2] at h hcond
        simp only [peekN_snd_input, peekN_snd_pos] at h hcond
        have hle : toDiscard ≤ l.input.length := by omega
        obtain ⟨k2, hk2, hpos⟩ := ih _ r h
        simp only [List.length_drop] at hk2
        refine ⟨toDiscard + k2, by omega, ?_⟩
        rw [hpos]
        rw [take_split toDiscard k2 l.input, List.foldl_append]

/-- C6: every consuming operation updates the reader position one rune at a
time through `stepPos`: `nextRune` maps the head rune through it, `advance`
(hence `AdvanceN`, `Discard`, `DiscardN`) folds it over the consumed prefix,
and every terminating `find`/`discardTo` leaves the position equal to the
fold of `stepPos` over some consumed prefix of the input.  `stepPos` adds 1
to the offset and, for a newline, adds 1 to the line and resets the column to
1 — otherwise it adds 1 to the column; consuming nothing (the `EOF`
sentinel, `nextRune` on exhausted input) changes no coordinate. -/
theorem C6_position_updates (l : CustomLexer) (h : l.err = none) :
    (∀ c rest, l.input = c :: rest →
      l.nextRune = ({ l with input := rest, pos := stepPos l.pos c, b := l.b.push c }, some c))
    ∧ (l.input = [] → (l.nextRune).1.pos = l.pos ∧ (l.nextRune).2 = none)
    ∧ (∀ n d, (l.advance n d).1.pos = (l.input.take n).foldl stepPos l.pos)
    ∧ (∀ q fuel r, l.find fuel q = some r →
        ∃ k, k ≤ l.input.length ∧ r.2.pos = (l.input.take k).foldl stepPos l.pos)
    ∧ (∀ q fuel r, l.discardTo fuel q = some r →
        ∃ k, k ≤ l.input.length ∧ r.2.pos = (l.input.take k).foldl stepPos l.pos)
    ∧ (∀ (p : Position) (c : Char), stepPos p c =
        ⟨p.filename, p.offset + 1,
         if c = '\n' then p.line + 1 else p.line,
         if c = '\n' then 1 else p.column + 1⟩) := by
  refine ⟨fun c rest hc => nextRune_cons l c rest h hc, ?_, ?_, ?_, ?_, ?_⟩
  · intro hnil
    rw [nextRune_nil l h hnil]
    exact ⟨setErr_pos .., rfl⟩
  · intro n d
    cases d with
    | false => rw [advance_false_spec l n h]
    | true => rw [advance_true_spec l n h]
  · intro q fuel r hr
    unfold CustomLexer.find at hr
    by_cases hm : maxQueryLen q = 0
    · rw [if_pos hm] at hr
      injection hr with hr
      subst hr
      exact ⟨0, by omega, rfl⟩
    · rw [if_neg hm] at hr
      exact findLoop_pos q (maxQueryLen q) fuel l r hr
  · intro q fuel r hr
    unfold CustomLexer.discardTo at hr
    by_cases hm : maxQueryLen q = 0
    · rw [if_pos hm] at hr
      injection hr with hr
      subst hr
      exact ⟨0, by omega, rfl⟩
    · rw [if_neg hm] at hr
      exact discardToLoop_pos q (maxQueryLen q) fuel l r hr
  · intro p c
    unfold stepPos lineColStep
    by_cases hc : c = '\n'
    · rw [if_pos hc, if_pos hc, if_pos hc]
    · rw [if_neg hc, if_neg hc, if_neg hc]

/-- C6 witness: `C6_position_updates` on a fresh lexer whose input starts
with a newline: `nextRune` consumes it and applies `stepPos`. -/
theorem C6_witness :
    (NewCustomLexer ['\n'] none).nextRune
      = ({ NewCustomLexer ['\n'] none with
            input := []
            pos := stepPos (NewCustomLexer ['\n'] none).pos '\n'
            b := (NewCustomLexer ['\n'] none).b.push '\n' }, some '\n') :=
  (C6_position_updates (NewCustomLexer ['\n'] none) rfl).1 '\n' [] rfl

theorem nextTokenLoop_eof {σ : Type} (mach : LexMachine σ) (done : Nat → Bool) :
    ∀ (fuel k : Nat) (l : CustomLexer) (st : Option σ) (l2 : CustomLexer)
      (st2 : Option σ) (t : Token),
    nextTokenLoop mach done fuel k l st = some (l2, st2, t) →
    t.type = TokenTypeEOF →
    (∀ u ∈ l2.buf, ¬u.type = TokenTypeEOF) →
    t = l2.newToken TokenTypeEOF := by
  intro fuel
  induction fuel with
  | zero =>
    intro k l st l2 st2 t h
    exact absurd h (by simp [nextTokenLoop])
  | succ fuel ih =>
    intro k l st l2 st2 t h heof hbuf2
    rw [nextTokenLoop.eq_def] at h
    simp only [] at h
    have hfin : ∀ (st3 : Option σ), some (nextTokenFinish l st3) = some (l2, st2, t) →
        t = l2.newToken TokenTypeEOF := by
      intro st3 hf
      unfold nextTokenFinish at hf
      cases hb : l.buf with
      | nil =>
        rw [hb] at hf
        simp only [Option.some.injEq, Prod.mk.injEq] at hf
        obtain ⟨h1, h2, h3⟩ := hf
        rw [← h3, ← h1]
      | cons t0 rest =>
        rw [hb] at hf
        simp only [] at hf
        by_cases ht0 : ¬t0.type = TokenTypeEOF
        · rw [if_pos ht0] at hf
          simp only [Option.some.injEq, Prod.mk.injEq] at hf
          obtain ⟨h1, h2, h3⟩ := hf
          rw [← h3] at heof
          exact absurd heof ht0
        · rw [if_neg ht0] at hf
          simp only [Option.some.injEq, Prod.mk.injEq] at hf
          obtain ⟨h1, h2, h3⟩ := hf
          have hmem : t0 ∈ l2.buf := by
            rw [← h1, hb]
            simp
          rw [← h3] at heof
          exact absurd heof (hbuf2 t0 hmem)
    cases st with
    | none => exact hfin none h
    | some s =>
      simp only [] at h
      by_cases hb : l.buf = []
      · rw [if_pos hb] at h
        by_cases hd : done k = true
        · rw [if_pos hd] at h
          simp only [Option.some.injEq, Prod.mk.injEq] at h
          obtain ⟨h1, h2, h3⟩ := h
          rw [← h3, ← h1]
        · rw [if_neg hd] at h
          by_cases he : ¬((mach.run s l).1.setErr (mach.run s l).2.2).err = none
          · rw [if_pos he] at h
            simp only [Option.some.injEq, Prod.mk.injEq] at h
            obtain ⟨h1, h2, h3⟩ := h
            rw [← h3, ← h1]
          · rw [if_neg he] at h
            exact ih (k + 1) _ _ l2 st2 t h heof hbuf2
      · rw [if_neg hb] at h
        exact hfin (some s) h

/-- C2 (amended): every `EOF`-typed token `NextToken` returns — as long as no
state enqueued an `EOF`-typed token through `Emit` — is synthesized by
`newToken`, so its value is the lexer's in-progress text, its start the token
cursor and its end the reader position; it therefore has an empty value and
`start = end` exactly when the in-progress buffer is empty and the cursor
equals the reader position when the lexer stops.  A state that advanced the
reader and then stopped with an error yields an `EOF` token carrying the
unemitted text with `start ≠ end` (see the counterexample). -/
theorem C2_eof_token {σ : Type} (mach : LexMachine σ) (done : Nat → Bool) (fuel : Nat)
    (l : CustomLexer) (st : Option σ) (l2 : CustomLexer) (st2 : Option σ) (t : Token)
    (h : NextToken mach done fuel l st = some (l2, st2, t))
    (heof : t.type = TokenTypeEOF)
    (hbuf : ∀ u ∈ l2.buf, ¬u.type = TokenTypeEOF)
    (hb : l2.b = "") (hcp : l2.cursor = l2.pos) :
    t.value = "" ∧ t.start = t.endPos := by
  have ht : t = l2.newToken TokenTypeEOF := by
    unfold NextToken at h
    by_cases he : ¬l.err = none
    · rw [if_pos he] at h
      simp only [Option.some.injEq, Prod.mk.injEq] at h
      obtain ⟨h1, h2, h3⟩ := h
      rw [← h3, h1]
    · rw [if_neg he] at h
      exact nextTokenLoop_eof mach done fuel 0 l st l2 st2 t h heof hbuf
  rw [ht]
  unfold CustomLexer.newToken
  exact ⟨hb, by simp only []; rw [hcp]⟩

/-- C2 witness: `C2_eof_token` on the empty input with a state that
immediately signals end-of-input: the `EOF` token has an empty value and
equal start and end coordinates. -/
theorem C2_witness :
    ((NewCustomLexer [] none).newToken TokenTypeEOF).value = ""
    ∧ ((NewCustomLexer [] none).newToken TokenTypeEOF).start
        = ((NewCustomLexer [] none).newToken TokenTypeEOF).endPos :=
  C2_eof_token (LexMachine.mk (σ := Unit) fun _ l => (l, none, some Err.eof)) (fun _ => false) 2
    (NewCustomLexer [] none) (some ()) (NewCustomLexer [] none) none
    ((NewCustomLexer [] none).newToken TokenTypeEOF) rfl rfl (by simp [NewCustomLexer]) rfl rfl

/-- C2 counterexample: a state that consumes the rune `'a'` with `nextRune`
and then returns an error makes `NextToken` return an `EOF`-typed token with
value `"a"` and `start ≠ end` — refuting the claim that every `EOF` token has
an empty value and equal coordinates. -/
theorem C2_counterexample :
    (NextToken (LexMachine.mk (σ := Unit)
          fun _ l => ((l.nextRune).1, none, some (Err.lexError "bad")))
        (fun _ => false) 2 (NewCustomLexer ['a'] none) (some ())).map (fun x => x.2.2)
      = some ⟨TokenTypeEOF, "a", ⟨"", 0, 1, 1⟩, ⟨"", 1, 1, 2⟩⟩
    ∧ ¬("a" = "")
    ∧ ¬((⟨"", 0, 1, 1⟩ : Position) = ⟨"", 1, 1, 2⟩) := by
  decide

/-- C4 (amended): the sticky-error check precedes the queue check.  When the
sticky error is unset and the queue is non-empty on entry, `NextToken`
returns the front token, popping it unless its type is `TokenTypeEOF`; when
the sticky error is set on entry, `NextToken` returns a synthesized `EOF`
token without consulting the queue.  (A state invocation that enqueues
tokens and also returns a non-EOF error makes the driver return `EOF` and
leave the enqueued tokens undelivered — see the counterexample.) -/
theorem C4_queue_vs_error {σ : Type} (mach : LexMachine σ) (done : Nat → Bool) (fuel : Nat)
    (l : CustomLexer) (st : Option σ) :
    (l.err = none → 0 < fuel → ∀ t rest, l.buf = t :: rest →
      NextToken mach done fuel l st
        = some (if ¬t.type = TokenTypeEOF then { l with buf := rest } else l, st, t))
    ∧ (¬l.err = none →
      NextToken mach done fuel l st = some (l, st, l.newToken TokenTypeEOF)) := by
  constructor
  · intro herr hf t rest hbuf
    unfold NextToken
    rw [if_neg (by simp [herr])]
    cases fuel with
    | zero => omega
    | succ fuel =>
      rw [nextTokenLoop.eq_def]
      cases st with
      | none =>
        simp only []
        unfold nextTokenFinish
        rw [hbuf]
        simp only []
        by_cases ht : ¬t.type = TokenTypeEOF
        · rw [if_pos ht, if_pos ht]
        · rw [if_neg ht, if_neg ht]
      | some s =>
        simp only []
        rw [if_neg (by simp [hbuf])]
        unfold nextTokenFinish
        rw [hbuf]
        simp only []
        by_cases ht : ¬t.type = TokenTypeEOF
        · rw [if_pos ht, if_pos ht]
        · rw [if_neg ht, if_neg ht]
  · intro herr
    unfold NextToken
    rw [if_pos herr]

/-- C4 witness: `C4_queue_vs_error` on a lexer with a non-EOF token queued
and no sticky error: `NextToken` pops and returns the front token. -/
theorem C4_witness :
    (CustomLexer.mk [⟨1, "hi", ⟨"", 0, 1, 1⟩, ⟨"", 2, 1, 3⟩⟩] [] none "" ⟨"", 2, 1, 3⟩
        ⟨"", 2, 1, 3⟩ none).err = none
    ∧ NextToken (LexMachine.mk (σ := Unit) fun _ l => (l, none, none)) (fun _ => false) 1
        (CustomLexer.mk [⟨1, "hi", ⟨"", 0, 1, 1⟩, ⟨"", 2, 1, 3⟩⟩] [] none "" ⟨"", 2, 1, 3⟩
          ⟨"", 2, 1, 3⟩ none) none
      = some (if ¬(⟨1, "hi", ⟨"", 0, 1, 1⟩, ⟨"", 2, 1, 3⟩⟩ : Token).type = TokenTypeEOF
          then { CustomLexer.mk [⟨1, "hi", ⟨"", 0, 1, 1⟩, ⟨"", 2, 1, 3⟩⟩] [] none ""
              ⟨"", 2, 1, 3⟩ ⟨"", 2, 1, 3⟩ none with buf := [] }
          else CustomLexer.mk [⟨1, "hi", ⟨"", 0, 1, 1⟩, ⟨"", 2, 1, 3⟩⟩] [] none ""
              ⟨"", 2, 1, 3⟩ ⟨"", 2, 1, 3⟩ none, none,
          ⟨1, "hi", ⟨"", 0, 1, 1⟩, ⟨"", 2, 1, 3⟩⟩) :=
  ⟨rfl,
   (C4_queue_vs_error (LexMachine.mk (σ := Unit) fun _ l => (l, none, none)) (fun _ => false) 1
      (CustomLexer.mk [⟨1, "hi", ⟨"", 0, 1, 1⟩, ⟨"", 2, 1, 3⟩⟩] [] none "" ⟨"", 2, 1, 3⟩
        ⟨"", 2, 1, 3⟩ none) none).1
     rfl (by omega) ⟨1, "hi", ⟨"", 0, 1, 1⟩, ⟨"", 2, 1, 3⟩⟩ [] rfl⟩

/-- C4 counterexample: a state that emits a token and returns a non-EOF
error: `NextToken` returns a synthesized `EOF` token while the emitted
non-EOF token stays undelivered in the queue — refuting the claim that a
non-empty queue is always served first even when the state also returned an
error. -/
theorem C4_counterexample :
    (NextToken (LexMachine.mk (σ := Unit)
          fun _ l => ((l.emit 1).2, some (), some (Err.lexError "bad")))
        (fun _ => false) 2 (NewCustomLexer [] none) (some ())).map
        (fun x => (x.1.buf, x.2.2.type))
      = some ([⟨1, "", ⟨"", 0, 1, 1⟩, ⟨"", 0, 1, 1⟩⟩], TokenTypeEOF)
    ∧ ¬((1 : Int) = TokenTypeEOF) := by
  decide

end Lexparse
